import Mathlib

/-!
Shallow embedding of `src/inventory_system.py`: a small in-memory inventory
manager with JSON persistence.  The module-level dict `stock_data : Dict[str, int]`
is modelled as an association list with unique-key (Python dict) update
semantics, and each Python function becomes a Lean function over that state.
Dynamically-typed arguments are modelled by `PyVal`; `ValueError` messages by
the `PyError` inductive; JSON documents read by `json.load` by `Json`.
-/

namespace InventorySystem

/-- A dynamically typed Python value as passed to the inventory functions.
`vint` covers Python `int` (Python `bool` is an `int` instance, mapped to 0/1);
`vstr` covers `str`; `vother` covers any value that is neither. -/
inductive PyVal where
  | vstr (s : String)
  | vint (n : Int)
  | vother
deriving DecidableEq, Repr

/-- The state of the module-level dict `stock_data : Dict[str, int]`,
as an association list in insertion order (Python dicts preserve it). -/
abbrev Stock := List (String × Int)

/-- `stock_data.get(k, default)` without the default: the value at the first
entry for key `k`, if any.  Python dicts hold each key once. -/
def dictGet (st : Stock) (k : String) : Option Int :=
  match st with
  | [] => none
  | p :: rest => if p.1 = k then some p.2 else dictGet rest k

/-- `stock_data[k] = v`: update the entry for `k` in place if present
(keeping its position, as Python dicts do), else append a new entry. -/
def dictSet (st : Stock) (k : String) (v : Int) : Stock :=
  match st with
  | [] => [(k, v)]
  | p :: rest => if p.1 = k then (k, v) :: rest else p :: dictSet rest k v

/-- `del stock_data[k]`: drop the entry (entries) with key `k`. -/
def dictErase (st : Stock) (k : String) : Stock :=
  st.filter (fun p => ¬ (p.1 = k))

/-- The distinct `ValueError` conditions raised by the source, one constructor
per message string. -/
inductive PyError where
  | itemMustBeNonEmptyString
  | qtyMustBeInteger
  | qtyMustBeNonNegative
  | qtyMustBePositiveInteger
  | itemNotFound (item : String)
  | thresholdMustBeNonNegativeInteger
deriving DecidableEq, Repr

/-- All `PyError`s except `itemNotFound` are input-validation errors. -/
def isValidationError : PyError → Bool
  | .itemNotFound _ => false
  | _ => true

/-- `add_item(item, qty)`: validates `item` is a non-empty string and `qty` a
non-negative integer, then `stock_data[item] = stock_data.get(item, 0) + qty`.
Returns the new stock, or the raised `ValueError`. -/
def add_item (item : PyVal) (qty : PyVal) (st : Stock) : Except PyError Stock :=
  match item with
  | .vstr s =>
    if s = "" then .error .itemMustBeNonEmptyString
    else
      match qty with
      | .vint q =>
        if q < 0 then .error .qtyMustBeNonNegative
        else
          let previous := (dictGet st s).getD 0
          .ok (dictSet st s (previous + q))
      | _ => .error .qtyMustBeInteger
  | _ => .error .itemMustBeNonEmptyString

/-- `remove_item(item, qty)`: validates `item` a non-empty string and `qty` a
positive integer; raises "not found" if `item` is absent; deletes the entry if
`qty >= current`, else decrements it. -/
def remove_item (item : PyVal) (qty : PyVal) (st : Stock) : Except PyError Stock :=
  match item with
  | .vstr s =>
    if s = "" then .error .itemMustBeNonEmptyString
    else
      match qty with
      | .vint q =>
        if q ≤ 0 then .error .qtyMustBePositiveInteger
        else
          match dictGet st s with
          | none => .error (.itemNotFound s)
          | some current =>
            if q ≥ current then .ok (dictErase st s)
            else .ok (dictSet st s (current - q))
      | _ => .error .qtyMustBePositiveInteger
  | _ => .error .itemMustBeNonEmptyString

/-- `get_qty(item)`: validates `item`, then `int(stock_data.get(item, 0))`
(the `int(...)` is the identity on the stored integers). -/
def get_qty (item : PyVal) (st : Stock) : Except PyError Int :=
  match item with
  | .vstr s =>
    if s = "" then .error .itemMustBeNonEmptyString
    else .ok ((dictGet st s).getD 0)
  | _ => .error .itemMustBeNonEmptyString

/-- A JSON document as decoded by `json.load`.  Object keys decoded by the
Python `json` module are always strings.  (JSON floats are not modelled; no
behaviour settled here depends on them.) -/
inductive Json where
  | jnull
  | jbool (b : Bool)
  | jint (n : Int)
  | jstr (s : String)
  | jarr (xs : List Json)
  | jobj (kvs : List (String × Json))

/-- Python `int(s)` on a string: optional surrounding spaces, an optional
sign, then a non-empty run of decimal digits. -/
def strToInt (s : String) : Option Int :=
  let cs := ((s.toList.dropWhile (fun c => c = ' ')).reverse.dropWhile
      (fun c => c = ' ')).reverse
  let signed : Bool × List Char :=
    match cs with
    | '-' :: rest => (true, rest)
    | '+' :: rest => (false, rest)
    | other => (false, other)
  match signed with
  | (neg, digits) =>
    if digits = [] then none
    else if digits.all (fun c => c.isDigit) then
      let n : Nat := digits.foldl (fun acc c => acc * 10 + (c.toNat - 48)) 0
      some (if neg then -(n : Int) else (n : Int))
    else none

/-- Python `int(v)` applied to a decoded JSON value: identity on ints,
`True`/`False` to 1/0, numeric strings parsed, everything else raises
`TypeError`/`ValueError` (here `none`, and `load_data` skips the entry). -/
def coerceInt : Json → Option Int
  | .jint n => some n
  | .jbool b => some (if b then 1 else 0)
  | .jstr s => strToInt s
  | _ => none

/-- One iteration of the validation loop in `load_data`:
`validated[k] = int(v)`, or skip the entry when `int(v)` raises. -/
def loadStep (acc : Stock) (kv : String × Json) : Stock :=
  match coerceInt kv.2 with
  | some n => dictSet acc kv.1 n
  | none => acc

/-- The `validated` dict built by `load_data` from the decoded object entries:
each value coerced with `int(...)`, non-coercible entries skipped with a
warning.  (The `isinstance(k, str)` guard never fires: decoded keys are
strings.) -/
def load_obj (kvs : List (String × Json)) : Stock :=
  kvs.foldl loadStep []

/-- The outcome of opening and JSON-decoding the file passed to `load_data`:
the file may be missing (`FileNotFoundError`), unparseable
(`json.JSONDecodeError`), or decoded to a `Json` value. -/
inductive FileRead where
  | missing
  | invalid
  | parsed (j : Json)

/-- `load_data(file)`: on a decoded JSON object, replace the whole stock with
the validated entries (`clear` then `update`); on a decoded non-object, a
missing file, or a decode error, log and keep the current stock. -/
def load_data (f : FileRead) (st : Stock) : Stock :=
  match f with
  | .missing => st
  | .invalid => st
  | .parsed j =>
    match j with
    | .jobj kvs => load_obj kvs
    | _ => st

/-- `save_data(file)`: the JSON object `json.dump` writes for the current
stock (a write failure is logged and changes no state). -/
def save_data (st : Stock) : Json :=
  .jobj (st.map (fun p => (p.1, Json.jint p.2)))

/-- The sort key order of Python `sorted(stock_data.items())`: lexicographic
on the (name, qty) pair. -/
def pairLe (a b : String × Int) : Bool :=
  decide (a.1 < b.1) || (decide (a.1 = b.1) && decide (a.2 ≤ b.2))

/-- The line `print` emits for one inventory entry. -/
def formatLine (p : String × Int) : String :=
  p.1 ++ " -> " ++ toString p.2

/-- `print_data()`: the printed report, one list element per printed line. -/
def print_data (st : Stock) : List String :=
  "Items Report" ::
    (if st.isEmpty then ["(no items)"]
     else (st.mergeSort pairLe).map formatLine)

/-- `check_low_items(threshold)`: validates the threshold, then the list
comprehension over the stock entries with quantity below it. -/
def check_low_items (threshold : PyVal) (st : Stock) : Except PyError (List String) :=
  match threshold with
  | .vint t =>
    if t < 0 then .error .thresholdMustBeNonNegativeInteger
    else .ok ((st.filter (fun p => p.2 < t)).map (fun p => p.1))
  | _ => .error .thresholdMustBeNonNegativeInteger

/-- One call into the module, for reasoning about operation sequences.
`opSave`, `opGetQty`, `opLowStock` and `opReport` never mutate `stock_data`. -/
inductive Op where
  | opAdd (item qty : PyVal)
  | opRemove (item qty : PyVal)
  | opLoad (f : FileRead)
  | opSave
  | opGetQty (item : PyVal)
  | opLowStock (t : PyVal)
  | opReport

/-- The effect of one call on `stock_data`; a raised `ValueError` leaves the
dict as it was. -/
def step (st : Stock) : Op → Stock
  | .opAdd i q =>
    match add_item i q st with
    | .ok st2 => st2
    | .error _ => st
  | .opRemove i q =>
    match remove_item i q st with
    | .ok st2 => st2
    | .error _ => st
  | .opLoad f => load_data f st
  | .opSave => st
  | .opGetQty _ => st
  | .opLowStock _ => st
  | .opReport => st

/-- Run a sequence of calls from a starting stock. -/
def run (st : Stock) (ops : List Op) : Stock :=
  ops.foldl step st

/-- Every entry of the stock has a non-negative quantity. -/
abbrev NonNeg (st : Stock) : Prop := ∀ p ∈ st, 0 ≤ p.2

/-- A file read is sign-safe when loading it cannot put a negative quantity
into the stock by replacement. -/
def fileNonNeg : FileRead → Prop
  | .parsed (.jobj kvs) => NonNeg (load_obj kvs)
  | _ => True

/-- An operation is sign-safe when it is not a load of a file with a negative
validated value. -/
def opSafe : Op → Prop
  | .opLoad f => fileNonNeg f
  | _ => True

instance (f : FileRead) : Decidable (fileNonNeg f) :=
  match f with
  | .missing => isTrue True.intro
  | .invalid => isTrue True.intro
  | .parsed (.jobj kvs) => show Decidable (NonNeg (load_obj kvs)) from inferInstance
  | .parsed .jnull => isTrue True.intro
  | .parsed (.jbool _) => isTrue True.intro
  | .parsed (.jint _) => isTrue True.intro
  | .parsed (.jstr _) => isTrue True.intro
  | .parsed (.jarr _) => isTrue True.intro

instance (op : Op) : Decidable (opSafe op) :=
  match op with
  | .opLoad f => show Decidable (fileNonNeg f) from inferInstance
  | .opAdd _ _ => isTrue True.intro
  | .opRemove _ _ => isTrue True.intro
  | .opSave => isTrue True.intro
  | .opGetQty _ => isTrue True.intro
  | .opLowStock _ => isTrue True.intro
  | .opReport => isTrue True.intro

/-! ### Association-list (Python dict) lemmas -/

theorem dictGet_dictSet_self (st : Stock) (k : String) (v : Int) :
    dictGet (dictSet st k v) k = some v := by
  induction st with
  | nil => simp [dictSet, dictGet]
  | cons p rest ih =>
    by_cases h : p.1 = k
    · simp [dictSet, dictGet, h]
    · simp [dictSet, dictGet, h, ih]

theorem dictGet_dictSet_ne (st : Stock) (k k' : String) (v : Int) (h : k ≠ k') :
    dictGet (dictSet st k v) k' = dictGet st k' := by
  induction st with
  | nil => simp [dictSet, dictGet, h]
  | cons p rest ih =>
    by_cases hp : p.1 = k
    · simp [dictSet, dictGet, hp, h]
    · simp [dictSet, dictGet, hp, ih]

theorem dictGet_dictErase_self (st : Stock) (k : String) :
    dictGet (dictErase st k) k = none := by
  induction st with
  | nil => simp [dictErase, dictGet]
  | cons p rest ih =>
    by_cases hp : p.1 = k
    · simpa [dictErase, List.filter_cons, hp] using ih
    · simpa [dictErase, List.filter_cons, hp, dictGet] using ih

theorem mem_dictSet (st : Stock) (k : String) (v : Int) (p : String × Int)
    (h : p ∈ dictSet st k v) : p = (k, v) ∨ p ∈ st := by
  induction st with
  | nil => simpa [dictSet] using h
  | cons q rest ih =>
    by_cases hq : q.1 = k
    · simp [dictSet, hq] at h
      rcases h with h | h
      · exact Or.inl h
      · exact Or.inr (List.mem_cons_of_mem _ h)
    · simp [dictSet, hq] at h
      rcases h with h | h
      · exact Or.inr (h ▸ List.mem_cons_self q rest)
      · rcases ih h with h2 | h2
        · exact Or.inl h2
        · exact Or.inr (List.mem_cons_of_mem _ h2)

theorem mem_dictErase (st : Stock) (k : String) (p : String × Int)
    (h : p ∈ dictErase st k) : p ∈ st :=
  List.mem_of_mem_filter h

theorem dictGet_mem (st : Stock) (k : String) (v : Int)
    (h : dictGet st k = some v) : (k, v) ∈ st := by
  induction st with
  | nil => simp [dictGet] at h
  | cons p rest ih =>
    by_cases hp : p.1 = k
    · simp [dictGet, hp] at h
      have hpe : p = (k, v) := by
        cases p with
        | mk a b =>
          simp only [Prod.mk.injEq]
          exact ⟨hp, h⟩
      exact hpe ▸ List.mem_cons_self _ _
    · simp [dictGet, hp] at h
      exact List.mem_cons_of_mem _ (ih h)

theorem dictSet_of_fresh (st : Stock) (k : String) (v : Int)
    (h : ∀ q ∈ st, q.1 ≠ k) : dictSet st k v = st ++ [(k, v)] := by
  induction st with
  | nil => simp [dictSet]
  | cons p rest ih =>
    have hp : p.1 ≠ k := h p (List.mem_cons_self _ _)
    simp [dictSet, hp]
    exact ih (fun q hq => h q (List.mem_cons_of_mem _ hq))

/-! ### Non-negativity preservation -/

theorem nonNeg_add_item (st st2 : Stock) (item qty : PyVal)
    (h : NonNeg st) (hok : add_item item qty st = .ok st2) : NonNeg st2 := by
  cases item with
  | vstr s =>
    by_cases hs : s = ""
    · simp [add_item, hs] at hok
    · cases qty with
      | vint q =>
        by_cases hq : q < 0
        · simp [add_item, hs, hq] at hok
        · simp [add_item, hs, hq] at hok
          intro p hp
          rcases mem_dictSet st s _ p (hok ▸ hp) with hpe | hpm
          · subst hpe
            have hprev : 0 ≤ (dictGet st s).getD 0 := by
              cases hg : dictGet st s with
              | none => simp
              | some v => simpa using h _ (dictGet_mem st s v hg)
            simp only []
            omega
          · exact h p hpm
      | vstr s2 => simp [add_item, hs] at hok
      | vother => simp [add_item, hs] at hok
  | vint n => simp [add_item] at hok
  | vother => simp [add_item] at hok

theorem nonNeg_remove_item (st st2 : Stock) (item qty : PyVal)
    (h : NonNeg st) (hok : remove_item item qty st = .ok st2) : NonNeg st2 := by
  cases item with
  | vstr s =>
    by_cases hs : s = ""
    · simp [remove_item, hs] at hok
    · cases qty with
      | vint q =>
        by_cases hq : q ≤ 0
        · simp [remove_item, hs, hq] at hok
        · cases hg : dictGet st s with
          | none => simp [remove_item, hs, hq, hg] at hok
          | some current =>
            by_cases hge : q ≥ current
            · simp [remove_item, hs, hq, hg, hge] at hok
              exact fun p hp => h p (mem_dictErase st s p (hok ▸ hp))
            · simp [remove_item, hs, hq, hg, hge] at hok
              intro p hp
              rcases mem_dictSet st s _ p (hok ▸ hp) with hpe | hpm
              · subst hpe
                simp only []
                omega
              · exact h p hpm
      | vstr s2 => simp [remove_item, hs] at hok
      | vother => simp [remove_item, hs] at hok
  | vint n => simp [remove_item] at hok
  | vother => simp [remove_item] at hok

theorem nonNeg_step (st : Stock) (op : Op) (h : NonNeg st) (hop : opSafe op) :
    NonNeg (step st op) := by
  cases op with
  | opAdd i q =>
    simp only [step]
    cases hcall : add_item i q st with
    | ok st2 => exact nonNeg_add_item st st2 i q h hcall
    | error e => exact h
  | opRemove i q =>
    simp only [step]
    cases hcall : remove_item i q st with
    | ok st2 => exact nonNeg_remove_item st st2 i q h hcall
    | error e => exact h
  | opLoad f =>
    cases f with
    | missing => exact h
    | invalid => exact h
    | parsed j =>
      cases j with
      | jobj kvs => exact hop
      | jnull => exact h
      | jbool b => exact h
      | jint n => exact h
      | jstr s2 => exact h
      | jarr xs => exact h
  | opSave => exact h
  | opGetQty i => exact h
  | opLowStock t => exact h
  | opReport => exact h

/-- C1 (amended): starting from a stock whose quantities are all non-negative,
any sequence of calls keeps every quantity non-negative, provided every `load`
in the sequence reads a file whose validated contents are non-negative.  The
restriction on `load` is necessary: `load_data` coerces each JSON value with
`int(...)` but never checks its sign, so a file holding a negative integer
puts that negative quantity into the stock (see the counterexample). -/
theorem nonNeg_invariant_run (st : Stock) (ops : List Op)
    (h : NonNeg st) (hs : ∀ op ∈ ops, opSafe op) : NonNeg (run st ops) := by
  induction ops generalizing st with
  | nil => exact h
  | cons op rest ih =>
    have h1 : NonNeg (step st op) := nonNeg_step st op h (hs op (List.mem_cons_self _ _))
    exact ih (step st op) h1 (fun o ho => hs o (List.mem_cons_of_mem _ ho))

/-- C1 counterexample: loading the JSON object `{"apple": -1}` into an empty
stock succeeds and leaves the entry `("apple", -1)` with quantity `-1 < 0` in
the stock, so the claimed invariant does not survive `load`. -/
theorem load_negative_counterexample :
    run [] [Op.opLoad (.parsed (.jobj [("apple", Json.jint (-1))]))] = [("apple", -1)] ∧
    ¬ NonNeg (run [] [Op.opLoad (.parsed (.jobj [("apple", Json.jint (-1))]))]) := by
  constructor
  · rfl
  · decide

/-- Witness for C1 (amended) at a concrete operation sequence. -/
theorem nonNeg_invariant_run_witness :
    NonNeg (run [("pear", 5)]
      [Op.opAdd (.vstr "apple") (.vint 10),
       Op.opRemove (.vstr "apple") (.vint 3),
       Op.opLoad (.parsed (.jobj [("banana", Json.jint 2)]))]) :=
  nonNeg_invariant_run [("pear", 5)] _ (by decide) (by decide)

/-! ### Save/load round-trip -/

theorem loadStep_jint (acc : Stock) (k : String) (n : Int) :
    loadStep acc (k, Json.jint n) = dictSet acc k n := rfl

theorem load_obj_save_go (st acc : Stock)
    (hnd : (st.map Prod.fst).Nodup)
    (hfresh : ∀ p ∈ st, ∀ q ∈ acc, q.1 ≠ p.1) :
    (st.map (fun p => (p.1, Json.jint p.2))).foldl loadStep acc = acc ++ st := by
  induction st generalizing acc with
  | nil => simp
  | cons p rest ih =>
    have hstep : loadStep acc (p.1, Json.jint p.2) = acc ++ [p] := by
      rw [loadStep_jint, dictSet_of_fresh acc p.1 p.2
        (fun q hq => hfresh p (List.mem_cons_self _ _) q hq)]
    have hnd2 : (rest.map Prod.fst).Nodup := (List.nodup_cons.mp (by simpa using hnd)).2
    have hhead : p.1 ∉ rest.map Prod.fst := (List.nodup_cons.mp (by simpa using hnd)).1
    have hfresh2 : ∀ p2 ∈ rest, ∀ q ∈ acc ++ [p], q.1 ≠ p2.1 := by
      intro p2 hp2 q hq
      rcases List.mem_append.mp hq with hqa | hqp
      · exact hfresh p2 (List.mem_cons_of_mem _ hp2) q hqa
      · have hqe : q = p := by simpa using hqp
        subst hqe
        intro hcontra
        exact hhead (hcontra ▸ List.mem_map_of_mem Prod.fst hp2)
    calc ((p :: rest).map (fun p => (p.1, Json.jint p.2))).foldl loadStep acc
        = (rest.map (fun p => (p.1, Json.jint p.2))).foldl loadStep
            (loadStep acc (p.1, Json.jint p.2)) := by simp
      _ = (acc ++ [p]) ++ rest := by rw [hstep]; exact ih (acc ++ [p]) hnd2 hfresh2
      _ = acc ++ p :: rest := by simp

/-- C2: saving any stock whose item names are distinct (always true of a
Python dict) and loading the written JSON object back replaces the current
stock, whatever it is, with a mapping equal to the saved one; the integer
values survive exactly. -/
theorem save_load_roundtrip (st cur : Stock) (hnd : (st.map Prod.fst).Nodup) :
    load_data (.parsed (save_data st)) cur = st := by
  show load_obj (st.map (fun p => (p.1, Json.jint p.2))) = st
  show (st.map (fun p => (p.1, Json.jint p.2))).foldl loadStep [] = st
  simpa using load_obj_save_go st [] hnd (by simp)

/-- Witness for C2 at a concrete stock and an unrelated current stock. -/
theorem save_load_roundtrip_witness :
    load_data (.parsed (save_data [("apple", 10), ("banana", 2)])) [("x", 99)]
      = [("apple", 10), ("banana", 2)] :=
  save_load_roundtrip [("apple", 10), ("banana", 2)] [("x", 99)] (by decide)

/-! ### Cumulative adds -/

/-- A sequence of `add_item(s, q)` calls for the quantities in `qs`. -/
def addAll (s : String) (qs : List Int) (st : Stock) : Stock :=
  run st (qs.map (fun q => Op.opAdd (.vstr s) (.vint q)))

theorem step_add_valid (st : Stock) (s : String) (q : Int)
    (hs : s ≠ "") (hq : 0 ≤ q) :
    step st (.opAdd (.vstr s) (.vint q)) = dictSet st s ((dictGet st s).getD 0 + q) := by
  have hq2 : ¬ q < 0 := by omega
  simp [step, add_item, hs, hq2]

theorem get_qty_str (st : Stock) (s : String) (hs : s ≠ "") :
    get_qty (.vstr s) st = .ok ((dictGet st s).getD 0) := by
  simp [get_qty, hs]

theorem addAll_get (st : Stock) (s : String) (qs : List Int)
    (hs : s ≠ "") (hq : ∀ q ∈ qs, 0 ≤ q) :
    (dictGet (addAll s qs st) s).getD 0 = (dictGet st s).getD 0 + qs.sum := by
  induction qs generalizing st with
  | nil => simp [addAll, run]
  | cons q rest ih =>
    have hq0 : 0 ≤ q := hq q (List.mem_cons_self _ _)
    have hstep := step_add_valid st s q hs hq0
    have hrec := ih (dictSet st s ((dictGet st s).getD 0 + q))
      (fun q2 hq2 => hq q2 (List.mem_cons_of_mem _ hq2))
    calc (dictGet (addAll s (q :: rest) st) s).getD 0
        = (dictGet (addAll s rest (step st (.opAdd (.vstr s) (.vint q)))) s).getD 0 := by
          simp [addAll, run]
      _ = (dictGet (dictSet st s ((dictGet st s).getD 0 + q)) s).getD 0 + rest.sum := by
          rw [hstep]; exact hrec
      _ = (dictGet st s).getD 0 + (q :: rest).sum := by
          rw [dictGet_dictSet_self]
          simp
          omega

/-- C3: after a sequence of valid adds of quantities `qs` (all `≥ 0`) for a
non-empty item name `s`, `get_qty(s)` returns the initial quantity plus the
sum of the `qs`; `get_qty` returns 0 for an absent item, and raises a
validation error for an empty or non-string item. -/
theorem add_cumulative_get_qty (st : Stock) (s : String) (qs : List Int)
    (hs : s ≠ "") (hq : ∀ q ∈ qs, 0 ≤ q) :
    get_qty (.vstr s) (addAll s qs st) = .ok ((dictGet st s).getD 0 + qs.sum)
    ∧ (dictGet st s = none → get_qty (.vstr s) st = .ok 0)
    ∧ get_qty (.vstr "") st = .error .itemMustBeNonEmptyString
    ∧ (∀ n : Int, get_qty (.vint n) st = .error .itemMustBeNonEmptyString)
    ∧ get_qty .vother st = .error .itemMustBeNonEmptyString := by
  refine ⟨?_, ?_, ?_, ?_, ?_⟩
  · rw [get_qty_str _ s hs, addAll_get st s qs hs hq]
  · intro habs
    simp [get_qty, hs, habs]
  · simp [get_qty]
  · intro n
    simp [get_qty]
  · simp [get_qty]

/-- Witness for C3: three adds of 10, 0 and 5 for "apple" on a stock holding
("apple", 2) give quantity 17. -/
theorem add_cumulative_get_qty_witness :
    get_qty (.vstr "apple") (addAll "apple" [10, 0, 5] [("apple", 2)]) = .ok 17 ∧
    get_qty (.vstr "pear") [("apple", 2)] = .ok 0 := by
  have h := add_cumulative_get_qty [("apple", 2)] "apple" [10, 0, 5]
    (by decide) (by decide)
  have h2 := add_cumulative_get_qty [("apple", 2)] "pear" []
    (by decide) (by decide)
  exact ⟨by rw [h.1]; rfl, h2.2.1 (by rfl)⟩

/-! ### remove_item behaviour -/

/-- C4: for an item present with quantity `current` and a valid positive
integer `qty`: when `qty ≥ current`, `remove_item` deletes the entry and
`get_qty` afterwards returns 0; when `qty < current`, it decrements the
quantity by `qty` and `get_qty` afterwards returns `current - qty`. -/
theorem remove_present_spec (st : Stock) (s : String) (q current : Int)
    (hs : s ≠ "") (hq : 0 < q) (hg : dictGet st s = some current) :
    (q ≥ current →
      remove_item (.vstr s) (.vint q) st = .ok (dictErase st s)
      ∧ get_qty (.vstr s) (dictErase st s) = .ok 0)
    ∧ (q < current →
      remove_item (.vstr s) (.vint q) st = .ok (dictSet st s (current - q))
      ∧ get_qty (.vstr s) (dictSet st s (current - q)) = .ok (current - q)) := by
  have hq2 : ¬ q ≤ 0 := by omega
  constructor
  · intro hge
    refine ⟨by simp [remove_item, hs, hq2, hg, hge], ?_⟩
    rw [get_qty_str _ s hs, dictGet_dictErase_self]
    rfl
  · intro hlt
    have hge : ¬ q ≥ current := by omega
    refine ⟨by simp [remove_item, hs, hq2, hg, hge], ?_⟩
    rw [get_qty_str _ s hs, dictGet_dictSet_self]
    rfl

/-- Witness for C4: removing 7 of 7 apples deletes the entry and leaves
quantity 0; removing 3 of 10 leaves 7. -/
theorem remove_present_spec_witness :
    (remove_item (.vstr "apple") (.vint 7) [("apple", 7)] = .ok []
      ∧ get_qty (.vstr "apple") (dictErase [("apple", 7)] "apple") = .ok 0)
    ∧ remove_item (.vstr "apple") (.vint 3) [("apple", 10)] = .ok [("apple", 7)] := by
  have h1 := remove_present_spec [("apple", 7)] "apple" 7 7 (by decide) (by decide) (by rfl)
  have h2 := remove_present_spec [("apple", 10)] "apple" 3 10 (by decide) (by decide) (by rfl)
  have h1a := h1.1 (by omega)
  have h2a := h2.2 (by omega)
  exact ⟨⟨h1a.1, h1a.2⟩, h2a.1⟩

/-- C5: for an item absent from the stock and any valid qty (a positive
integer), `remove_item` raises the "not found" error, which is not a
validation error, and the stock is left unchanged. -/
theorem remove_absent_fails (st : Stock) (s : String) (q : Int)
    (hs : s ≠ "") (hq : 0 < q) (hg : dictGet st s = none) :
    remove_item (.vstr s) (.vint q) st = .error (.itemNotFound s)
    ∧ isValidationError (.itemNotFound s) = false
    ∧ step st (.opRemove (.vstr s) (.vint q)) = st := by
  have hq2 : ¬ q ≤ 0 := by omega
  refine ⟨by simp [remove_item, hs, hq2, hg], rfl, ?_⟩
  simp [step, remove_item, hs, hq2, hg]

/-- Witness for C5: removing an absent "orange" raises "not found" and leaves
the stock as it was. -/
theorem remove_absent_fails_witness :
    remove_item (.vstr "orange") (.vint 1) [("apple", 7)] = .error (.itemNotFound "orange")
    ∧ step [("apple", 7)] (.opRemove (.vstr "orange") (.vint 1)) = [("apple", 7)] := by
  have h := remove_absent_fails [("apple", 7)] "orange" 1 (by decide) (by decide) (by rfl)
  exact ⟨h.1, h.2.2⟩

/-! ### add_item validation failures -/

/-- The item argument fails `add_item` validation: empty string or not a
string at all. -/
def badItem : PyVal → Prop
  | .vstr s => s = ""
  | _ => True

/-- The qty argument fails `add_item` validation: a negative integer or not
an integer at all. -/
def badQty : PyVal → Prop
  | .vint n => n < 0
  | _ => True

/-- C6: `add_item` with an empty or non-string item, or with a negative or
non-integer qty, always raises a validation error, and the stock is left
unchanged. -/
theorem add_invalid_fails (st : Stock) (item qty : PyVal)
    (h : badItem item ∨ badQty qty) :
    (∃ e, add_item item qty st = .error e ∧ isValidationError e = true)
    ∧ step st (.opAdd item qty) = st := by
  cases item with
  | vstr s =>
    by_cases hs : s = ""
    · exact ⟨⟨.itemMustBeNonEmptyString, by simp [add_item, hs], rfl⟩,
        by simp [step, add_item, hs]⟩
    · have hbq : badQty qty := by
        rcases h with hi | hq
        · exact absurd hi hs
        · exact hq
      cases qty with
      | vint n =>
        have hn : n < 0 := hbq
        exact ⟨⟨.qtyMustBeNonNegative, by simp [add_item, hs, hn], rfl⟩,
          by simp [step, add_item, hs, hn]⟩
      | vstr s2 =>
        exact ⟨⟨.qtyMustBeInteger, by simp [add_item, hs], rfl⟩,
          by simp [step, add_item, hs]⟩
      | vother =>
        exact ⟨⟨.qtyMustBeInteger, by simp [add_item, hs], rfl⟩,
          by simp [step, add_item, hs]⟩
  | vint n =>
    exact ⟨⟨.itemMustBeNonEmptyString, by simp [add_item], rfl⟩,
      by simp [step, add_item]⟩
  | vother =>
    exact ⟨⟨.itemMustBeNonEmptyString, by simp [add_item], rfl⟩,
      by simp [step, add_item]⟩

/-- Witness for C6: adding -2 bananas fails and changes nothing. -/
theorem add_invalid_fails_witness :
    (∃ e, add_item (.vstr "banana") (.vint (-2)) [("apple", 10)] = .error e
      ∧ isValidationError e = true)
    ∧ step [("apple", 10)] (.opAdd (.vstr "banana") (.vint (-2))) = [("apple", 10)] :=
  add_invalid_fails [("apple", 10)] (.vstr "banana") (.vint (-2))
    (Or.inr (show (-2 : Int) < 0 by decide))

/-! ### load_data failure modes -/

/-- The decoded value is a JSON object. -/
def isObj : Json → Bool
  | .jobj _ => true
  | _ => false

/-- C7: `load_data` from a missing file, from a file that fails JSON
decoding, or from a file whose decoded top level is not a JSON object,
returns (and therefore keeps) the current stock unchanged; none of these
raises to the caller, since `load_data` is total on `FileRead`. -/
theorem load_failure_keeps_stock (st : Stock) :
    load_data .missing st = st
    ∧ load_data .invalid st = st
    ∧ ∀ j, isObj j = false → load_data (.parsed j) st = st := by
  refine ⟨rfl, rfl, ?_⟩
  intro j hj
  cases j with
  | jobj kvs => simp [isObj] at hj
  | jnull => rfl
  | jbool b => rfl
  | jint n => rfl
  | jstr s => rfl
  | jarr xs => rfl

/-- Witness for C7: a missing file, a decode error, and a top-level JSON
array all leave the concrete stock in place. -/
theorem load_failure_keeps_stock_witness :
    load_data .missing [("apple", 10)] = [("apple", 10)]
    ∧ load_data .invalid [("apple", 10)] = [("apple", 10)]
    ∧ load_data (.parsed (.jarr [.jint 1])) [("apple", 10)] = [("apple", 10)] := by
  have h := load_failure_keeps_stock [("apple", 10)]
  exact ⟨h.1, h.2.1, h.2.2 (.jarr [.jint 1]) (by rfl)⟩

/-! ### check_low_items -/

theorem mem_fst_filter_subset (st : Stock) (f : String × Int → Bool) (name : String)
    (h : name ∈ (st.filter f).map (fun p => p.1)) : name ∈ st.map (fun p => p.1) :=
  List.map_subset _ (st.filter_sublist).subset h

theorem lowNames_mem_iff (st : Stock) (t : Int) (hnd : (st.map (fun p => p.1)).Nodup)
    (name : String) :
    name ∈ (st.filter (fun p => p.2 < t)).map (fun p => p.1)
      ↔ ∃ q, dictGet st name = some q ∧ q < t := by
  induction st with
  | nil => simp [dictGet]
  | cons p rest ih =>
    have hnd2 : (rest.map (fun p => p.1)).Nodup := (List.nodup_cons.mp (by simpa using hnd)).2
    have hhead : p.1 ∉ rest.map (fun p => p.1) := (List.nodup_cons.mp (by simpa using hnd)).1
    by_cases hp : p.1 = name
    · subst hp
      by_cases hlt : p.2 < t
      · simp [List.filter_cons, hlt, dictGet]
      · constructor
        · intro hmem
          rw [show (p :: rest).filter (fun q => q.2 < t) = rest.filter (fun q => q.2 < t)
            from by simp [List.filter_cons, hlt]] at hmem
          exact absurd (mem_fst_filter_subset rest _ p.1 hmem) hhead
        · rintro ⟨q, hq, hqt⟩
          have hq2 : p.2 = q := by simpa [dictGet] using hq
          exact absurd (hq2 ▸ hqt) hlt
    · have hp2 : ¬ name = p.1 := fun h => hp h.symm
      have hget : dictGet (p :: rest) name = dictGet rest name := by simp [dictGet, hp]
      rw [hget]
      by_cases hlt : p.2 < t
      · simpa [List.filter_cons, hlt, hp2] using ih hnd2
      · simpa [List.filter_cons, hlt] using ih hnd2

/-- C8: for an integer threshold `t ≥ 0`, `check_low_items` succeeds and the
returned list holds exactly the names whose stocked quantity is strictly
below `t`; a negative integer, a string or any other non-integer threshold
raises the validation error; and on the stock
{"apple": 10, "banana": 2, "pear": 5} with threshold 5 the result is exactly
["banana"]. -/
theorem low_stock_spec (st : Stock) (t : Int) (hnd : (st.map (fun p => p.1)).Nodup) :
    (0 ≤ t → ∃ names, check_low_items (.vint t) st = .ok names
      ∧ ∀ name, (name ∈ names ↔ ∃ q, dictGet st name = some q ∧ q < t))
    ∧ (t < 0 → check_low_items (.vint t) st = .error .thresholdMustBeNonNegativeInteger)
    ∧ (∀ s, check_low_items (.vstr s) st = .error .thresholdMustBeNonNegativeInteger)
    ∧ check_low_items .vother st = .error .thresholdMustBeNonNegativeInteger
    ∧ check_low_items (.vint 5) [("apple", 10), ("banana", 2), ("pear", 5)]
        = .ok ["banana"] := by
  refine ⟨?_, ?_, ?_, ?_, by rfl⟩
  · intro ht
    have ht2 : ¬ t < 0 := by omega
    exact ⟨(st.filter (fun p => p.2 < t)).map (fun p => p.1),
      by simp [check_low_items, ht2], fun name => lowNames_mem_iff st t hnd name⟩
  · intro ht
    simp [check_low_items, ht]
  · intro s
    simp [check_low_items]
  · simp [check_low_items]

/-- Witness for C8: the spec example at threshold 5, plus the membership
characterization evaluated for "banana" and "pear". -/
theorem low_stock_spec_witness :
    ∃ names, check_low_items (.vint 5) [("apple", 10), ("banana", 2), ("pear", 5)]
      = .ok names
    ∧ ("banana" ∈ names ↔ ∃ q, dictGet [("apple", 10), ("banana", 2), ("pear", 5)]
        "banana" = some q ∧ q < 5) := by
  have h := low_stock_spec [("apple", 10), ("banana", 2), ("pear", 5)] 5 (by decide)
  obtain ⟨names, hok, hmem⟩ := h.1 (by decide)
  exact ⟨names, hok, hmem "banana"⟩

/-! ### print_data (report) -/

theorem pairLe_iff (a b : String × Int) :
    pairLe a b = true ↔ a.1 < b.1 ∨ (a.1 = b.1 ∧ a.2 ≤ b.2) := by
  simp [pairLe]

theorem pairLe_trans (a b c : String × Int)
    (hab : pairLe a b) (hbc : pairLe b c) : pairLe a c := by
  rw [pairLe_iff] at hab hbc ⊢
  rcases hab with h1 | ⟨h1, h1q⟩ <;> rcases hbc with h2 | ⟨h2, h2q⟩
  · exact Or.inl (lt_trans h1 h2)
  · exact Or.inl (h2 ▸ h1)
  · exact Or.inl (h1 ▸ h2)
  · exact Or.inr ⟨h1.trans h2, le_trans h1q h2q⟩

theorem pairLe_total (a b : String × Int) : pairLe a b || pairLe b a := by
  rcases lt_trichotomy a.1 b.1 with h | h | h
  · simp [pairLe_iff a b, h]
  · rcases Int.le_total a.2 b.2 with hq | hq
    · simp [pairLe_iff a b, h, hq]
    · simp [pairLe_iff b a, h.symm, hq]
  · simp [pairLe_iff b a, h]

/-- C9: `print_data` prints the header followed by "(no items)" on an empty
stock; on a non-empty stock it prints the header followed by one line per
entry, the entries being a permutation of the stock sorted so that the item
names appear in alphabetical (non-decreasing) order; the stock itself is
left unchanged. -/
theorem report_spec (st : Stock) :
    print_data [] = ["Items Report", "(no items)"]
    ∧ step st .opReport = st
    ∧ (st ≠ [] →
        print_data st = "Items Report" :: (st.mergeSort pairLe).map formatLine
        ∧ (st.mergeSort pairLe).Perm st
        ∧ ((st.mergeSort pairLe).map (fun p => p.1)).Pairwise (fun a b => a ≤ b)) := by
  refine ⟨rfl, rfl, ?_⟩
  intro hne
  have hempty : st.isEmpty = false := by
    cases st with
    | nil => exact absurd rfl hne
    | cons p rest => rfl
  refine ⟨by simp [print_data, hempty], List.mergeSort_perm st pairLe, ?_⟩
  have hsorted : (st.mergeSort pairLe).Pairwise (fun a b => pairLe a b = true) :=
    List.sorted_mergeSort
      (fun a b c hab hbc => pairLe_trans a b c hab hbc)
      (fun a b => pairLe_total a b) st
  have hnames : (st.mergeSort pairLe).Pairwise (fun a b => a.1 ≤ b.1) := by
    refine hsorted.imp ?_
    intro a b hab
    rcases (pairLe_iff a b).mp hab with h | ⟨h, _⟩
    · exact le_of_lt h
    · exact le_of_eq h
  exact (List.pairwise_map).mpr hnames

/-- Witness for C9 at a concrete three-item stock given in reverse order. -/
theorem report_spec_witness :
    print_data [] = ["Items Report", "(no items)"]
    ∧ print_data [("pear", 5), ("apple", 10), ("banana", 2)]
        = "Items Report" ::
          (([("pear", 5), ("apple", 10), ("banana", 2)] : Stock).mergeSort pairLe).map
            formatLine
    ∧ ((([("pear", 5), ("apple", 10), ("banana", 2)] : Stock).mergeSort pairLe).map
        (fun p => p.1)).Pairwise (fun a b => a ≤ b) := by
  have h := report_spec [("pear", 5), ("apple", 10), ("banana", 2)]
  exact ⟨h.1, (h.2.2 (by decide)).1, (h.2.2 (by decide)).2.2⟩

/-! ### add of quantity zero -/

theorem dictGet_none_forall (st : Stock) (k : String) (h : dictGet st k = none) :
    ∀ q ∈ st, q.1 ≠ k := by
  induction st with
  | nil => intro q hq; simp at hq
  | cons p rest ih =>
    intro q hq
    by_cases hp : p.1 = k
    · simp [dictGet, hp] at h
    · simp [dictGet, hp] at h
      rcases List.mem_cons.mp hq with hqe | hqm
      · exact hqe ▸ hp
      · exact ih h q hqm

theorem dictGet_append_of_none (st l2 : Stock) (k : String) (h : dictGet st k = none) :
    dictGet (st ++ l2) k = dictGet l2 k := by
  induction st with
  | nil => rfl
  | cons p rest ih =>
    by_cases hp : p.1 = k
    · simp [dictGet, hp] at h
    · simp [dictGet, hp] at h ⊢
      exact ih h

/-- C10: adding quantity 0 for a non-empty item name absent from the stock
succeeds and appends a retained entry with quantity 0; the item is then
reported by `check_low_items` for every threshold `t ≥ 1` and printed by
`print_data` as the line `s ++ " -> 0"`. -/
theorem add_zero_creates_entry (st : Stock) (s : String)
    (hs : s ≠ "") (habs : dictGet st s = none) :
    add_item (.vstr s) (.vint 0) st = .ok (st ++ [(s, 0)])
    ∧ get_qty (.vstr s) (st ++ [(s, 0)]) = .ok 0
    ∧ (∀ t : Int, 1 ≤ t →
        ∃ names, check_low_items (.vint t) (st ++ [(s, 0)]) = .ok names ∧ s ∈ names)
    ∧ (s ++ " -> 0") ∈ print_data (st ++ [(s, 0)]) := by
  have hfresh : ∀ q ∈ st, q.1 ≠ s := dictGet_none_forall st s habs
  have hset : dictSet st s 0 = st ++ [(s, 0)] := dictSet_of_fresh st s 0 hfresh
  have hget : dictGet (st ++ [(s, 0)]) s = some 0 := by
    rw [dictGet_append_of_none st [(s, 0)] s habs]
    simp [dictGet]
  refine ⟨?_, ?_, ?_, ?_⟩
  · have : add_item (.vstr s) (.vint 0) st = .ok (dictSet st s 0) := by
      simp [add_item, hs, habs]
    rw [this, hset]
  · rw [get_qty_str _ s hs, hget]
    rfl
  · intro t ht
    have ht2 : ¬ t < 0 := by omega
    refine ⟨((st ++ [(s, 0)]).filter (fun p : String × Int => p.2 < t)).map
        (fun p : String × Int => p.1),
      by simp [check_low_items, ht2], ?_⟩
    refine List.mem_map.mpr ⟨(s, 0), List.mem_filter.mpr ⟨?_, ?_⟩, rfl⟩
    · exact List.mem_append_right st (List.mem_cons_self _ _)
    · simp
      omega
  · have hemp : (st ++ [(s, 0)]).isEmpty = false := by
      cases st with
      | nil => rfl
      | cons p rest => rfl
    have hfmt : formatLine (s, 0) = s ++ " -> 0" := by
      show s ++ " -> " ++ toString (0 : Int) = s ++ " -> 0"
      rw [String.append_assoc]
      rfl
    rw [print_data, hemp]
    simp only [Bool.false_eq_true, if_false]
    refine List.mem_cons_of_mem _ (List.mem_map.mpr ⟨(s, 0), ?_, hfmt⟩)
    exact (List.mem_mergeSort).mpr (List.mem_append_right st (List.mem_cons_self _ _))

/-- Witness for C10: adding 0 oranges to a one-apple stock creates and keeps
the zero-quantity entry, visible to low-stock at threshold 1. -/
theorem add_zero_creates_entry_witness :
    add_item (.vstr "orange") (.vint 0) [("apple", 7)] = .ok [("apple", 7), ("orange", 0)]
    ∧ get_qty (.vstr "orange") [("apple", 7), ("orange", 0)] = .ok 0
    ∧ (∃ names, check_low_items (.vint 1) [("apple", 7), ("orange", 0)] = .ok names
        ∧ "orange" ∈ names)
    ∧ ("orange" ++ " -> 0") ∈ print_data [("apple", 7), ("orange", 0)] := by
  have h := add_zero_creates_entry [("apple", 7)] "orange" (by decide) (by rfl)
  exact ⟨h.1, h.2.1, h.2.2.1 1 (by omega), h.2.2.2⟩

end InventorySystem
